import Mathlib

/-!
Shallow embedding of the `lazycat` terminal file browser (`src/main.rs`)
together with proofs about its navigation/preview state machine.

Modelling conventions:
* A filesystem path is a list of components (`Path`); the empty list is the
  filesystem root, whose `parent()` is `none`, mirroring `PathBuf::parent`.
* The filesystem and the external syntect highlighting capability are an
  explicit environment `FS`: `read_dir` returns either an error message or
  the list of surviving child names (per-entry failures are already dropped,
  mirroring `.filter_map(|e| e.ok())`), `is_dir` is the `Path::is_dir` stat,
  `read_to_string` returns `none` on read failure (binary / non-UTF-8), and
  `highlight` stands for `App::highlight_content`'s syntect pipeline.
* `Vec::sort_by` is a stable sort; the output of a stable sort is uniquely
  determined by the comparator and the input order, so it is embedded as
  insertion sort (also stable), which the kernel can evaluate.
* String comparison (`OsString::cmp`, `String::cmp`) is byte-wise
  lexicographic; on UTF-8 data this agrees with code-point-wise order, which
  `charsLe` implements on `String.data`.
* Fallible operations (`io::Result<()>` with `&mut self`) are embedded as
  `App → App × Option String`: the returned state is the state at the moment
  the function returns, the `Option String` is the propagated error (`?`).
-/

namespace Lazycat

/-- Lexicographic (code-point-wise, hence byte-wise on UTF-8) order on
character lists, the embedding of Rust's byte-wise `cmp` as a `≤` test. -/
def charsLe : List Char → List Char → Bool
  | [], _ => true
  | _ :: _, [] => false
  | a :: as, b :: bs =>
    if a.toNat < b.toNat then true
    else if b.toNat < a.toNat then false
    else charsLe as bs

/-- Byte-wise lexicographic `≤` on strings (`OsString::cmp` / `String::cmp`). -/
def strLe (a b : String) : Bool := charsLe a.data b.data

/-- A filesystem path as a list of components; `[]` is the root. -/
abbrev Path := List String

/-- The embedding of `PathBuf::parent`: `none` at the root, otherwise drop
the last component. -/
def pathParent (p : Path) : Option Path :=
  if p = [] then none else some p.dropLast

/-- Text styles that the program distinguishes: the default style,
the directory style (`Style::default().fg(Color::Blue)`), and the rgb
foreground styles produced by the highlighter. -/
inductive PStyle where
  | default : PStyle
  | dir : PStyle
  | rgb : Nat → Nat → Nat → PStyle
deriving DecidableEq, Repr

/-- A styled text run (`ratatui::text::Span`). -/
structure Span where
  text : String
  style : PStyle
deriving DecidableEq, Repr

/-- A preview line (`ratatui::text::Line`): a sequence of styled spans.
`Line::from(string)` is the singleton span with default style. -/
abbrev Line := List Span

/-- The filesystem / external-capability environment of the program. -/
structure FS where
  /-- `Path::is_dir` (a fresh stat on every call). -/
  is_dir : Path → Bool
  /-- `fs::read_dir` followed by `.filter_map(|e| e.ok())`: error message on
  failure, otherwise the child names that survived, in filesystem order. -/
  read_dir : Path → Except String (List String)
  /-- `fs::read_to_string`: `none` on any read failure (binary / non-UTF-8). -/
  read_to_string : Path → Option String
  /-- `App::highlight_content`: the external syntect highlighting capability,
  applied to the (truncated) content and the file path. -/
  highlight : String → Path → List Line

/-- A directory entry as the program keeps it (`fs::DirEntry`): its full path
(`entry.path()`, i.e. parent dir joined with the name) and its file name. -/
structure DirEntry where
  path : Path
  file_name : String
deriving DecidableEq, Repr

/-- The navigation state (`struct App`; the syntect sets live in `FS`). -/
structure App where
  current_dir : Path
  entries : List DirEntry
  selected : Nat
  preview_lines : List Line
deriving DecidableEq, Repr

/-- A `DecidableRel` instance for a boolean comparator read as a relation. -/
def decRelEqTrue (le : α → α → Bool) : DecidableRel (fun a b => le a b = true) :=
  fun a b => instDecidableEqBool (le a b) true

/-- Stable sort by a boolean comparator: the embedding of `Vec::sort_by`
(with `le a b` meaning `cmp(a,b) != Greater`).  `Vec::sort_by` is stable and
a stable sort's output is uniquely determined by comparator and input order,
so insertion sort (stable, kernel-evaluable) is a faithful embedding. -/
def sortBy (le : α → α → Bool) (l : List α) : List α :=
  @List.insertionSort α (fun a b => le a b = true) (decRelEqTrue le) l

/-- The entry comparator of `refresh_entries`: directories sort before files
regardless of name; within the same kind, byte-wise by file name. -/
def entry_le (fs : FS) (a b : DirEntry) : Bool :=
  match fs.is_dir a.path, fs.is_dir b.path with
  | true, false => true
  | false, true => false
  | _, _ => strLe a.file_name b.file_name

/-- `content.chars().take(n).collect()`. -/
def truncateChars (s : String) (n : Nat) : String := String.mk (s.data.take n)

/-- `Iterator::position`: index of the first element satisfying `p`. -/
def position (p : α → Bool) : List α → Option Nat
  | [] => none
  | x :: xs => if p x then some 0 else (position p xs).map (· + 1)

/-- Rendering of one child in a directory preview: trailing `/` and the
directory style for directories, plain name and default style for files. -/
def renderDirItem (it : String × Bool) : Line :=
  [⟨if it.2 then it.1 ++ "/" else it.1, if it.2 then PStyle.dir else PStyle.default⟩]

/-- The preview computation of `App::update_preview`, as a pure function of
the environment and the `(entries, selected)` pair it reads. -/
def computePreview (fs : FS) (entries : List DirEntry) (selected : Nat) : List Line :=
  match entries[selected]? with
  | none => []
  | some entry =>
    if fs.is_dir entry.path then
      match fs.read_dir entry.path with
      | .ok names =>
        let items := names.map fun n => (n, fs.is_dir (entry.path ++ [n]))
        (sortBy (fun a b => strLe a.1 b.1) items).map renderDirItem
      | .error e => [[⟨"Cannot read directory: " ++ e, PStyle.default⟩]]
    else
      match fs.read_to_string entry.path with
      | some content => fs.highlight (truncateChars content 50000) entry.path
      | none => [[⟨"[Binary file or cannot read]", PStyle.default⟩]]

/-- `App::update_preview`: recompute `preview_lines` from the current state. -/
def update_preview (fs : FS) (app : App) : App :=
  { app with preview_lines := computePreview fs app.entries app.selected }

/-- `App::refresh_entries`.  On `read_dir` failure the `?` operator returns
the error before anything is assigned, so the state is unchanged.  On success
the entries are rebuilt and sorted, `selected` is clamped
(`len().saturating_sub(1)`), and the preview is recomputed. -/
def refresh_entries (fs : FS) (app : App) : App × Option String :=
  match fs.read_dir app.current_dir with
  | .error e => (app, some e)
  | .ok names =>
    let ents := sortBy (entry_le fs)
      (names.map fun n => DirEntry.mk (app.current_dir ++ [n]) n)
    let sel := if ents.length ≤ app.selected then ents.length - 1 else app.selected
    (update_preview fs { app with entries := ents, selected := sel }, none)

/-- `App::move_up`: decrement `selected` and recompute the preview, unless
already at index 0. -/
def move_up (fs : FS) (app : App) : App :=
  if 0 < app.selected then
    update_preview fs { app with selected := app.selected - 1 }
  else app

/-- `App::move_down`: increment `selected` and recompute the preview, unless
already at the last index. -/
def move_down (fs : FS) (app : App) : App :=
  if app.selected + 1 < app.entries.length then
    update_preview fs { app with selected := app.selected + 1 }
  else app

/-- `App::enter_directory`: if the selected entry is a directory, commit
`current_dir` and `selected := 0` and then `refresh_entries()?`; otherwise do
nothing. -/
def enter_directory (fs : FS) (app : App) : App × Option String :=
  match app.entries[app.selected]? with
  | none => (app, none)
  | some entry =>
    if fs.is_dir entry.path then
      refresh_entries fs { app with current_dir := entry.path, selected := 0 }
    else (app, none)

/-- `App::go_parent`: move to the parent directory (no-op at the root),
refresh, then look for the directory just left and reselect it if found. -/
def go_parent (fs : FS) (app : App) : App × Option String :=
  match pathParent app.current_dir with
  | none => (app, none)
  | some par =>
    let old_dir := app.current_dir
    match refresh_entries fs { app with current_dir := par } with
    | (app1, some e) => (app1, some e)
    | (app1, none) =>
      match position (fun en => decide (en.path = old_dir)) app1.entries with
      | some idx => (update_preview fs { app1 with selected := idx }, none)
      | none => (app1, none)

/-- The abstract navigation commands decoded from key events in `main`. -/
inductive Command where
  | quit | moveUp | moveDown | enter | goParent
deriving DecidableEq, Repr

/-- Outcome of one iteration of `main`'s event loop on a key press:
continue with a new state, leave the loop cleanly (`q` / `Esc`), or exit the
process with an error (an `io::Result` error propagated out of `main` by `?`,
which also skips the terminal restore code after the loop). -/
inductive StepResult where
  | cont : App → StepResult
  | exitClean : App → StepResult
  | exitErr : String → StepResult
deriving DecidableEq, Repr

/-- The command dispatch of `main`'s event loop (`match key.code`). -/
def mainStep (fs : FS) (app : App) : Command → StepResult
  | .quit => .exitClean app
  | .moveDown => .cont (move_down fs app)
  | .moveUp => .cont (move_up fs app)
  | .enter =>
    match enter_directory fs app with
    | (_, some e) => .exitErr e
    | (a, none) => .cont a
  | .goParent =>
    match go_parent fs app with
    | (_, some e) => .exitErr e
    | (a, none) => .cont a

/-- The state-mutating operations of the navigation state machine. -/
inductive NavOp where
  | refresh | moveUp | moveDown | enter | goParent
deriving DecidableEq, Repr

/-- Apply one operation, returning the resulting state and the propagated
error, if any (`move_up` / `move_down` cannot fail). -/
def applyNavE (fs : FS) (app : App) : NavOp → App × Option String
  | .refresh => refresh_entries fs app
  | .moveUp => (move_up fs app, none)
  | .moveDown => (move_down fs app, none)
  | .enter => enter_directory fs app
  | .goParent => go_parent fs app

/-- The state after one operation (whether or not it reported an error). -/
def applyNav (fs : FS) (app : App) (op : NavOp) : App :=
  (applyNavE fs app op).1

/-- Run a sequence of operations, each against its own filesystem snapshot. -/
def runNav (app : App) : List (FS × NavOp) → App
  | [] => app
  | (fs, op) :: rest => runNav (applyNav fs app op) rest

/-- Selection bound invariant: `selected < entries.length` or `entries` is
empty. -/
def selInv (app : App) : Prop :=
  app.selected < app.entries.length ∨ app.entries = []

/-- Preview consistency: the cached preview equals the preview computed from
the entry at `selected` in `entries` against the current environment. -/
def previewConsistent (fs : FS) (app : App) : Prop :=
  app.preview_lines = computePreview fs app.entries app.selected

/-! ### Helper lemmas -/

theorem charsLe_total : ∀ as bs : List Char, charsLe as bs = true ∨ charsLe bs as = true
  | [], _ => Or.inl rfl
  | _ :: _, [] => Or.inr rfl
  | a :: as, b :: bs => by
    simp only [charsLe]
    rcases Nat.lt_trichotomy a.toNat b.toNat with h | h | h
    · left; simp [h]
    · have h1 : ¬ a.toNat < b.toNat := by omega
      have h2 : ¬ b.toNat < a.toNat := by omega
      simpa [h1, h2] using charsLe_total as bs
    · right; simp [h]

theorem charsLe_trans :
    ∀ as bs cs : List Char,
      charsLe as bs = true → charsLe bs cs = true → charsLe as cs = true
  | [], _, _, _, _ => rfl
  | _ :: _, [], _, h1, _ => by simp [charsLe] at h1
  | _ :: _, _ :: _, [], _, h2 => by simp [charsLe] at h2
  | a :: as, b :: bs, c :: cs, h1, h2 => by
    rw [charsLe] at h1 h2 ⊢
    by_cases hab : a.toNat < b.toNat
    · by_cases hbc : b.toNat < c.toNat
      · rw [if_pos (show a.toNat < c.toNat by omega)]
      · rw [if_neg hbc] at h2
        by_cases hcb : c.toNat < b.toNat
        · rw [if_pos hcb] at h2; simp at h2
        · rw [if_pos (show a.toNat < c.toNat by omega)]
    · rw [if_neg hab] at h1
      by_cases hba : b.toNat < a.toNat
      · rw [if_pos hba] at h1; simp at h1
      · rw [if_neg hba] at h1
        by_cases hbc : b.toNat < c.toNat
        · rw [if_pos (show a.toNat < c.toNat by omega)]
        · rw [if_neg hbc] at h2
          by_cases hcb : c.toNat < b.toNat
          · rw [if_pos hcb] at h2; simp at h2
          · rw [if_neg hcb] at h2
            rw [if_neg (show ¬ a.toNat < c.toNat by omega),
              if_neg (show ¬ c.toNat < a.toNat by omega)]
            exact charsLe_trans as bs cs h1 h2

theorem strLe_total (a b : String) : strLe a b = true ∨ strLe b a = true :=
  charsLe_total a.data b.data

theorem strLe_trans {a b c : String} (h1 : strLe a b = true) (h2 : strLe b c = true) :
    strLe a c = true :=
  charsLe_trans a.data b.data c.data h1 h2

theorem entry_le_total (fs : FS) (a b : DirEntry) :
    entry_le fs a b = true ∨ entry_le fs b a = true := by
  unfold entry_le
  cases fs.is_dir a.path <;> cases fs.is_dir b.path <;>
    simp <;> exact strLe_total _ _

theorem entry_le_trans (fs : FS) (a b c : DirEntry)
    (h1 : entry_le fs a b = true) (h2 : entry_le fs b c = true) :
    entry_le fs a c = true := by
  unfold entry_le at h1 h2 ⊢
  cases hA : fs.is_dir a.path <;> cases hB : fs.is_dir b.path <;>
    cases hC : fs.is_dir c.path <;>
      simp [hA, hB, hC] at h1 h2 ⊢ <;> exact strLe_trans h1 h2

theorem sortBy_perm (le : α → α → Bool) (l : List α) : (sortBy le l).Perm l :=
  @List.perm_insertionSort α (fun a b => le a b = true) (decRelEqTrue le) l

theorem sortBy_pairwise (le : α → α → Bool)
    (htrans : ∀ a b c, le a b = true → le b c = true → le a c = true)
    (htotal : ∀ a b, le a b = true ∨ le b a = true) (l : List α) :
    (sortBy le l).Pairwise (fun a b => le a b = true) := by
  haveI : IsTotal α (fun a b => le a b = true) := ⟨htotal⟩
  haveI : IsTrans α (fun a b => le a b = true) := ⟨htrans⟩
  exact @List.sorted_insertionSort α (fun a b => le a b = true) (decRelEqTrue le) _ _ l

theorem position_spec {p : α → Bool} :
    ∀ (l : List α) (i : Nat), position p l = some i →
      ∃ hi : i < l.length, p (l.get ⟨i, hi⟩) = true
  | [], i, h => by simp [position] at h
  | x :: xs, i, h => by
    cases hpx : p x with
    | true =>
      have hi : i = 0 := by
        rw [position, if_pos hpx] at h
        exact (Option.some.inj h).symm
      subst hi
      exact ⟨Nat.succ_pos _, hpx⟩
    | false =>
      rw [position, if_neg (by simp [hpx])] at h
      obtain ⟨j, hj, rfl⟩ := Option.map_eq_some'.mp h
      obtain ⟨hjlt, hpj⟩ := position_spec xs j hj
      exact ⟨Nat.succ_lt_succ hjlt, hpj⟩

theorem position_isSome_of_mem {p : α → Bool} (a : α) :
    ∀ {l : List α}, a ∈ l → p a = true → (position p l).isSome = true
  | [], h, _ => by simp at h
  | x :: xs, hmem, hp => by
    cases hpx : p x with
    | true => rw [position, if_pos hpx]; rfl
    | false =>
      rw [position, if_neg (by simp [hpx])]
      rcases List.mem_cons.mp hmem with rfl | hmem2
      · rw [hp] at hpx; cases hpx
      · have hrec := position_isSome_of_mem a hmem2 hp
        cases hq : position p xs with
        | none => rw [hq] at hrec; simp at hrec
        | some j => rfl

@[simp] theorem update_preview_current_dir (fs : FS) (app : App) :
    (update_preview fs app).current_dir = app.current_dir := rfl

@[simp] theorem update_preview_entries (fs : FS) (app : App) :
    (update_preview fs app).entries = app.entries := rfl

@[simp] theorem update_preview_selected (fs : FS) (app : App) :
    (update_preview fs app).selected = app.selected := rfl

@[simp] theorem update_preview_preview_lines (fs : FS) (app : App) :
    (update_preview fs app).preview_lines = computePreview fs app.entries app.selected := rfl

theorem refresh_err (fs : FS) (app : App) (e : String)
    (h : fs.read_dir app.current_dir = .error e) :
    refresh_entries fs app = (app, some e) := by
  unfold refresh_entries
  rw [h]

/-- The sorted entry list rebuilt by a successful refresh of directory `d`. -/
def rebuiltEntries (fs : FS) (d : Path) (names : List String) : List DirEntry :=
  sortBy (entry_le fs) (names.map fun n => DirEntry.mk (d ++ [n]) n)

/-- The clamped selection after a successful refresh. -/
def clampSel (len sel : Nat) : Nat := if len ≤ sel then len - 1 else sel

theorem refresh_ok (fs : FS) (app : App) (names : List String)
    (h : fs.read_dir app.current_dir = .ok names) :
    refresh_entries fs app =
      (update_preview fs
        { app with
          entries := rebuiltEntries fs app.current_dir names,
          selected := clampSel (rebuiltEntries fs app.current_dir names).length app.selected },
       none) := by
  unfold refresh_entries
  rw [h]
  rfl

theorem clampSel_lt_or_zero (len sel : Nat) :
    clampSel len sel < len ∨ len = 0 := by
  unfold clampSel
  split <;> omega

instance (app : App) : Decidable (selInv app) := by
  unfold selInv; exact inferInstance

instance (fs : FS) (app : App) : Decidable (previewConsistent fs app) := by
  unfold previewConsistent; exact inferInstance

theorem previewConsistent_update_preview (fs : FS) (app : App) :
    previewConsistent fs (update_preview fs app) := rfl

theorem selInv_refresh (fs : FS) (app : App) (h : selInv app) :
    selInv (refresh_entries fs app).1 := by
  cases hr : fs.read_dir app.current_dir with
  | error e => rw [refresh_err fs app e hr]; exact h
  | ok names =>
    rw [refresh_ok fs app names hr]
    unfold selInv
    simp only [update_preview_selected, update_preview_entries]
    rcases clampSel_lt_or_zero (rebuiltEntries fs app.current_dir names).length
      app.selected with hlt | h0
    · exact Or.inl hlt
    · exact Or.inr (List.length_eq_zero.mp h0)

theorem selInv_move_up (fs : FS) (app : App) (h : selInv app) :
    selInv (move_up fs app) := by
  unfold move_up
  split
  · unfold selInv at h ⊢
    simp only [update_preview_selected, update_preview_entries]
    rcases h with h | h
    · exact Or.inl (by omega)
    · exact Or.inr h
  · exact h

theorem selInv_move_down (fs : FS) (app : App) (h : selInv app) :
    selInv (move_down fs app) := by
  unfold move_down
  split
  · unfold selInv
    simp only [update_preview_selected, update_preview_entries]
    omega
  · exact h

theorem enter_eq_none {fs : FS} {app : App}
    (h : app.entries[app.selected]? = none) :
    enter_directory fs app = (app, none) := by
  unfold enter_directory; rw [h]

theorem enter_eq_some {fs : FS} {app : App} {ent : DirEntry}
    (h : app.entries[app.selected]? = some ent) :
    enter_directory fs app =
      if fs.is_dir ent.path then
        refresh_entries fs { app with current_dir := ent.path, selected := 0 }
      else (app, none) := by
  unfold enter_directory; rw [h]

theorem go_parent_eq_root {fs : FS} {app : App}
    (h : pathParent app.current_dir = none) :
    go_parent fs app = (app, none) := by
  unfold go_parent; rw [h]

theorem go_parent_eq_some {fs : FS} {app : App} {par : Path}
    (h : pathParent app.current_dir = some par) :
    go_parent fs app =
      match refresh_entries fs { app with current_dir := par } with
      | (app1, some e) => (app1, some e)
      | (app1, none) =>
        match position (fun (en : DirEntry) => decide (en.path = app.current_dir))
            app1.entries with
        | some idx => (update_preview fs { app1 with selected := idx }, none)
        | none => (app1, none) := by
  unfold go_parent; rw [h]

theorem selInv_enter (fs : FS) (app : App) (h : selInv app) :
    selInv (enter_directory fs app).1 := by
  cases hget : app.entries[app.selected]? with
  | none => rw [enter_eq_none hget]; exact h
  | some entry =>
    rw [enter_eq_some hget]
    by_cases hd : fs.is_dir entry.path = true
    · rw [if_pos hd]
      apply selInv_refresh
      refine Or.inl ?_
      show 0 < app.entries.length
      obtain ⟨hlt, -⟩ := List.getElem?_eq_some.mp hget
      omega
    · rw [if_neg hd]; exact h

theorem selInv_go_parent (fs : FS) (app : App) (h : selInv app) :
    selInv (go_parent fs app).1 := by
  cases hp : pathParent app.current_dir with
  | none => rw [go_parent_eq_root hp]; exact h
  | some par =>
    rw [go_parent_eq_some hp]
    have h1 : selInv (refresh_entries fs { app with current_dir := par }).1 :=
      selInv_refresh fs _ h
    cases hr : refresh_entries fs { app with current_dir := par } with
    | mk app1 err =>
      rw [hr] at h1
      cases err with
      | some e => exact h1
      | none =>
        show selInv (match position (fun (en : DirEntry) => decide (en.path = app.current_dir))
            app1.entries with
          | some idx => (update_preview fs { app1 with selected := idx }, none)
          | none => (app1, none)).1
        cases hpos : position (fun en => decide (en.path = app.current_dir))
            app1.entries with
        | none => exact h1
        | some idx =>
          refine Or.inl ?_
          show idx < app1.entries.length
          obtain ⟨hlt, -⟩ := position_spec app1.entries idx hpos
          exact hlt

theorem selInv_applyNav (fs : FS) (app : App) (op : NavOp) (h : selInv app) :
    selInv (applyNav fs app op) := by
  cases op with
  | refresh => exact selInv_refresh fs app h
  | moveUp => exact selInv_move_up fs app h
  | moveDown => exact selInv_move_down fs app h
  | enter => exact selInv_enter fs app h
  | goParent => exact selInv_go_parent fs app h

/-- From `entry_le` (the comparator of `refresh_entries`) to the claimed pair
property: directories precede files, same-kind pairs are in name order. -/
theorem entry_le_spec {fs : FS} {a b : DirEntry} (hab : entry_le fs a b = true) :
    (fs.is_dir b.path = true → fs.is_dir a.path = true) ∧
    (fs.is_dir a.path = fs.is_dir b.path → strLe a.file_name b.file_name = true) := by
  unfold entry_le at hab
  cases hA : fs.is_dir a.path <;> cases hB : fs.is_dir b.path <;>
    simp [hA, hB] at hab ⊢ <;> exact hab

/-! ### The claims -/

/-- Claim C3: for any set of filesystem entries, a successful `refresh()`
produces exactly one entry per surviving child of the current directory, and
in the produced order every directory precedes every file while within each
of the two groups entries are in byte-wise lexicographic order by name. -/
theorem refresh_sorts_dirs_first_lex (fs : FS) (app : App) (names : List String)
    (h : fs.read_dir app.current_dir = .ok names) :
    ((refresh_entries fs app).1.entries.Perm
      (names.map fun n => DirEntry.mk (app.current_dir ++ [n]) n)) ∧
    (refresh_entries fs app).1.entries.Pairwise (fun a b =>
      (fs.is_dir b.path = true → fs.is_dir a.path = true) ∧
      (fs.is_dir a.path = fs.is_dir b.path → strLe a.file_name b.file_name = true)) := by
  rw [refresh_ok fs app names h]
  simp only [update_preview_entries]
  constructor
  · exact sortBy_perm _ _
  · exact (sortBy_pairwise (entry_le fs) (entry_le_trans fs) (entry_le_total fs) _).imp
      (fun hab => entry_le_spec hab)

/-- Filesystem for the C3 scenario: the current directory `["r"]` holds
children `b.txt`, `A` (a directory) and `a.txt`. -/
def fsC3 : FS where
  is_dir := fun p => decide (p = ["r"] ∨ p = ["r", "A"])
  read_dir := fun p => if p = ["r"] then .ok ["b.txt", "A", "a.txt"] else .error "nf"
  read_to_string := fun _ => none
  highlight := fun s _ => [[⟨s, PStyle.default⟩]]

def appC3 : App := ⟨["r"], [], 0, []⟩

/-- Witness for C3, on the spec's own scenario: a directory containing
`b.txt`, `A/` and `a.txt` refreshes to the order `A`, `a.txt`, `b.txt`. -/
theorem refresh_sorts_dirs_first_lex_witness :
    fsC3.read_dir appC3.current_dir = .ok ["b.txt", "A", "a.txt"] ∧
    (refresh_entries fsC3 appC3).1.entries =
      [⟨["r", "A"], "A"⟩, ⟨["r", "a.txt"], "a.txt"⟩, ⟨["r", "b.txt"], "b.txt"⟩] ∧
    (((refresh_entries fsC3 appC3).1.entries.Perm
      (["b.txt", "A", "a.txt"].map fun n => DirEntry.mk (["r"] ++ [n]) n)) ∧
    (refresh_entries fsC3 appC3).1.entries.Pairwise (fun a b =>
      (fsC3.is_dir b.path = true → fsC3.is_dir a.path = true) ∧
      (fsC3.is_dir a.path = fsC3.is_dir b.path →
        strLe a.file_name b.file_name = true))) :=
  ⟨rfl, by decide, refresh_sorts_dirs_first_lex fsC3 appC3 ["b.txt", "A", "a.txt"] rfl⟩

/-- Claim C4: every sequence of MoveUp / MoveDown / Enter / GoParent /
refresh operations, each step taken against an arbitrary filesystem
snapshot, preserves the invariant `selected < entries.length ∨ entries = []`. -/
theorem nav_ops_preserve_selected_bound (ops : List (FS × NavOp)) (app : App)
    (h : selInv app) : selInv (runNav app ops) := by
  induction ops generalizing app with
  | nil => exact h
  | cons p rest ih =>
    obtain ⟨fs, op⟩ := p
    exact ih (applyNav fs app op) (selInv_applyNav fs app op h)

def fsC4 : FS where
  is_dir := fun p => decide (p = ["r"] ∨ p = ["r", "A"])
  read_dir := fun p => if p = ["r"] then .ok ["b.txt", "A", "a.txt"] else .error "nf"
  read_to_string := fun _ => none
  highlight := fun s _ => [[⟨s, PStyle.default⟩]]

def appC4 : App := ⟨["r"], [], 0, []⟩

/-- Witness for C4: a concrete five-step run (refresh, two MoveDown, Enter
on a file, GoParent at work against an unreadable parent) keeps the bound. -/
theorem nav_ops_preserve_selected_bound_witness :
    selInv appC4 ∧
    selInv (runNav appC4
      [(fsC4, .refresh), (fsC4, .moveDown), (fsC4, .moveDown),
        (fsC4, .enter), (fsC4, .goParent), (fsC4, .moveUp)]) :=
  ⟨by decide,
   nav_ops_preserve_selected_bound
     [(fsC4, .refresh), (fsC4, .moveDown), (fsC4, .moveDown),
       (fsC4, .enter), (fsC4, .goParent), (fsC4, .moveUp)] appC4 (by decide)⟩

/-- Claim C8: the selection never wraps: `move_up` at index 0 and
`move_down` at the last index are both complete no-ops on the state. -/
theorem move_no_wrap (fs : FS) (app : App) :
    (app.selected = 0 → move_up fs app = app) ∧
    (app.selected = app.entries.length - 1 → move_down fs app = app) := by
  constructor
  · intro h
    unfold move_up
    rw [if_neg (show ¬ 0 < app.selected by omega)]
  · intro h
    unfold move_down
    rw [if_neg (show ¬ app.selected + 1 < app.entries.length by omega)]

def fsC8 : FS where
  is_dir := fun _ => false
  read_dir := fun _ => .error "nf"
  read_to_string := fun _ => none
  highlight := fun s _ => [[⟨s, PStyle.default⟩]]

def appC8 : App := ⟨["r"], [⟨["r", "x"], "x"⟩], 0, []⟩

/-- Witness for C8: on a one-entry list with the single index selected, both
boundary moves leave the state unchanged. -/
theorem move_no_wrap_witness :
    move_up fsC8 appC8 = appC8 ∧ move_down fsC8 appC8 = appC8 :=
  ⟨(move_no_wrap fsC8 appC8).1 (by decide),
   (move_no_wrap fsC8 appC8).2 (by decide)⟩

/-- Claim C9: when the selected entry is a file whose contents cannot be
read as text, the recomputed preview is exactly the one fixed placeholder
line. -/
theorem unreadable_file_preview_placeholder (fs : FS) (app : App) (ent : DirEntry)
    (hget : app.entries[app.selected]? = some ent)
    (hfile : fs.is_dir ent.path = false)
    (hread : fs.read_to_string ent.path = none) :
    (update_preview fs app).preview_lines =
      [[⟨"[Binary file or cannot read]", PStyle.default⟩]] := by
  unfold update_preview computePreview
  rw [hget]
  simp [hfile, hread]

def fsC9 : FS where
  is_dir := fun _ => false
  read_dir := fun _ => .error "nf"
  read_to_string := fun _ => none
  highlight := fun s _ => [[⟨s, PStyle.default⟩]]

def appC9 : App := ⟨["r"], [⟨["r", "bin"], "bin"⟩], 0, []⟩

/-- Witness for C9: an unreadable selected file previews as the single
placeholder line. -/
theorem unreadable_file_preview_placeholder_witness :
    fsC9.read_to_string ["r", "bin"] = none ∧
    (update_preview fsC9 appC9).preview_lines =
      [[⟨"[Binary file or cannot read]", PStyle.default⟩]] :=
  ⟨rfl, unreadable_file_preview_placeholder fsC9 appC9 ⟨["r", "bin"], "bin"⟩ rfl rfl rfl⟩

/-- Claim C10: `move_up` and `move_down` modify at most `selected` and the
cached preview: `current_dir` and the `entries` list are always unchanged. -/
theorem move_frame_preserves_dir_and_entries (fs : FS) (app : App) :
    (move_up fs app).current_dir = app.current_dir ∧
    (move_up fs app).entries = app.entries ∧
    (move_down fs app).current_dir = app.current_dir ∧
    (move_down fs app).entries = app.entries := by
  unfold move_up move_down
  refine ⟨?_, ?_, ?_, ?_⟩ <;> split <;> rfl

theorem go_parent_found (fs : FS) (app : App) (par : Path) (names : List String)
    (idx : Nat)
    (hpp : pathParent app.current_dir = some par)
    (hrd : fs.read_dir par = .ok names)
    (hpos : position (fun (en : DirEntry) => decide (en.path = app.current_dir))
      (rebuiltEntries fs par names) = some idx) :
    go_parent fs app =
      (update_preview fs
        { app with
            current_dir := par,
            entries := rebuiltEntries fs par names,
            selected := idx }, none) := by
  rw [go_parent_eq_some hpp,
    refresh_ok fs { app with current_dir := par } names hrd]
  dsimp only [update_preview_entries]
  rw [hpos]
  rfl

/-- Core of the Enter/GoParent round trip, for any state `S1` whose current
directory is `cur ++ [nm]` while `cur` re-reads successfully with `nm` still
listed: `go_parent` lands in `cur` with the child `cur ++ [nm]` selected. -/
theorem go_parent_roundtrip_core (fs : FS) (S1 : App) (cur : Path) (nm : String)
    (parNames : List String)
    (hS1cur : S1.current_dir = cur ++ [nm])
    (hpar : fs.read_dir cur = .ok parNames)
    (hmem : nm ∈ parNames) :
    (go_parent fs S1).1.current_dir = cur ∧
    ∃ hh : (go_parent fs S1).1.selected < (go_parent fs S1).1.entries.length,
      ((go_parent fs S1).1.entries.get ⟨(go_parent fs S1).1.selected, hh⟩).path =
        cur ++ [nm] := by
  have hpp : pathParent S1.current_dir = some cur := by
    rw [hS1cur]
    unfold pathParent
    rw [if_neg (by simp), List.dropLast_concat]
  obtain ⟨idx, hposEq⟩ :
      ∃ idx, position (fun (en : DirEntry) => decide (en.path = S1.current_dir))
        (rebuiltEntries fs cur parNames) = some idx := by
    apply Option.isSome_iff_exists.mp
    apply position_isSome_of_mem (DirEntry.mk (cur ++ [nm]) nm)
    · exact ((sortBy_perm _ _).mem_iff).mpr
        (List.mem_map_of_mem (fun n => DirEntry.mk (cur ++ [n]) n) hmem)
    · exact decide_eq_true hS1cur.symm
  rw [go_parent_found fs S1 cur parNames idx hpp hpar hposEq]
  refine ⟨rfl, ?_⟩
  obtain ⟨hlt, hp⟩ := position_spec (rebuiltEntries fs cur parNames) idx hposEq
  refine ⟨hlt, ?_⟩
  exact (of_decide_eq_true hp).trans hS1cur

theorem go_parent_current_dir (fs : FS) (S1 : App) (par : Path)
    (hpp : pathParent S1.current_dir = some par) :
    (go_parent fs S1).1.current_dir = par := by
  rw [go_parent_eq_some hpp]
  cases hrd : fs.read_dir par with
  | error e => rw [refresh_err fs { S1 with current_dir := par } e hrd]
  | ok names =>
    rw [refresh_ok fs { S1 with current_dir := par } names hrd]
    dsimp only [update_preview_entries]
    cases position (fun (en : DirEntry) => decide (en.path = S1.current_dir))
        (rebuiltEntries fs par names) with
    | some idx => rfl
    | none => rfl

/-- Claim C5: entering a readable selected subdirectory and then going back
to the parent restores `current_dir`, and whenever the subdirectory is still
listed in the re-read parent listing, the selection points at its position
in the new entry list. -/
theorem enter_go_parent_roundtrip (fs : FS) (app : App) (ent : DirEntry)
    (subNames : List String)
    (hget : app.entries[app.selected]? = some ent)
    (hpath : ent.path = app.current_dir ++ [ent.file_name])
    (hdir : fs.is_dir ent.path = true)
    (hsub : fs.read_dir ent.path = .ok subNames) :
    (go_parent fs (enter_directory fs app).1).1.current_dir = app.current_dir ∧
    (∀ parNames, fs.read_dir app.current_dir = .ok parNames →
      ent.file_name ∈ parNames →
      ∃ hh : (go_parent fs (enter_directory fs app).1).1.selected <
          (go_parent fs (enter_directory fs app).1).1.entries.length,
        ((go_parent fs (enter_directory fs app).1).1.entries.get
          ⟨(go_parent fs (enter_directory fs app).1).1.selected, hh⟩).path =
            ent.path) := by
  have hcur : (enter_directory fs app).1.current_dir =
      app.current_dir ++ [ent.file_name] := by
    rw [enter_eq_some hget, if_pos hdir,
      refresh_ok fs { app with current_dir := ent.path, selected := 0 } subNames hsub]
    exact hpath
  constructor
  · apply go_parent_current_dir
    rw [hcur]
    unfold pathParent
    rw [if_neg (by simp), List.dropLast_concat]
  · intro parNames hpar hmem
    rw [hpath]
    exact (go_parent_roundtrip_core fs (enter_directory fs app).1 app.current_dir
      ent.file_name parNames hcur hpar hmem).2

/-- Filesystem for the C5 witness: root `["r"]` has a readable, empty
subdirectory `d` and a file `f`. -/
def fsC5 : FS where
  is_dir := fun p => decide (p = ["r"] ∨ p = ["r", "d"])
  read_dir := fun p =>
    if p = ["r"] then .ok ["d", "f"]
    else if p = ["r", "d"] then .ok []
    else .error "nf"
  read_to_string := fun p => if p = ["r", "f"] then some "x" else none
  highlight := fun s _ => [[⟨s, PStyle.default⟩]]

def appC5 : App :=
  ⟨["r"], [⟨["r", "d"], "d"⟩, ⟨["r", "f"], "f"⟩], 0,
    computePreview fsC5 [⟨["r", "d"], "d"⟩, ⟨["r", "f"], "f"⟩] 0⟩

/-- Witness for C5: entering the subdirectory `d` of `["r"]` and going back
restores the current directory and reselects `d` (at index 0). -/
theorem enter_go_parent_roundtrip_witness :
    ((go_parent fsC5 (enter_directory fsC5 appC5).1).1.current_dir = ["r"] ∧
    (∀ parNames, fsC5.read_dir ["r"] = .ok parNames → "d" ∈ parNames →
      ∃ hh : (go_parent fsC5 (enter_directory fsC5 appC5).1).1.selected <
          (go_parent fsC5 (enter_directory fsC5 appC5).1).1.entries.length,
        ((go_parent fsC5 (enter_directory fsC5 appC5).1).1.entries.get
          ⟨(go_parent fsC5 (enter_directory fsC5 appC5).1).1.selected, hh⟩).path =
            DirEntry.path ⟨["r", "d"], "d"⟩)) ∧
    (go_parent fsC5 (enter_directory fsC5 appC5).1).1.selected = 0 ∧
    (go_parent fsC5 (enter_directory fsC5 appC5).1).1.entries =
      [⟨["r", "d"], "d"⟩, ⟨["r", "f"], "f"⟩] :=
  ⟨enter_go_parent_roundtrip fsC5 appC5 ⟨["r", "d"], "d"⟩ [] rfl rfl rfl rfl,
   by decide, by decide⟩

theorem pc_refresh (fs : FS) (app : App) (h : previewConsistent fs app) :
    previewConsistent fs (refresh_entries fs app).1 := by
  cases hr : fs.read_dir app.current_dir with
  | error e => rw [refresh_err fs app e hr]; exact h
  | ok names => rw [refresh_ok fs app names hr]; exact previewConsistent_update_preview fs _

theorem pc_move_up (fs : FS) (app : App) (h : previewConsistent fs app) :
    previewConsistent fs (move_up fs app) := by
  unfold move_up
  split
  · exact previewConsistent_update_preview fs _
  · exact h

theorem pc_move_down (fs : FS) (app : App) (h : previewConsistent fs app) :
    previewConsistent fs (move_down fs app) := by
  unfold move_down
  split
  · exact previewConsistent_update_preview fs _
  · exact h

theorem pc_go_parent (fs : FS) (app : App) (h : previewConsistent fs app) :
    previewConsistent fs (go_parent fs app).1 := by
  cases hp : pathParent app.current_dir with
  | none => rw [go_parent_eq_root hp]; exact h
  | some par =>
    rw [go_parent_eq_some hp]
    cases hrd : fs.read_dir par with
    | error e =>
      rw [refresh_err fs { app with current_dir := par } e hrd]
      exact h
    | ok names =>
      rw [refresh_ok fs { app with current_dir := par } names hrd]
      dsimp only [update_preview_entries]
      cases position (fun (en : DirEntry) => decide (en.path = app.current_dir))
          (rebuiltEntries fs par names) with
      | some idx => exact previewConsistent_update_preview fs _
      | none => exact previewConsistent_update_preview fs _

theorem pc_enter (fs : FS) (app : App) (h : previewConsistent fs app)
    (hok : (enter_directory fs app).2 = none) :
    previewConsistent fs (enter_directory fs app).1 := by
  cases hget : app.entries[app.selected]? with
  | none => rw [enter_eq_none hget]; exact h
  | some ent =>
    rw [enter_eq_some hget] at hok ⊢
    by_cases hd : fs.is_dir ent.path = true
    · rw [if_pos hd] at hok ⊢
      cases hrd : fs.read_dir ent.path with
      | error e =>
        rw [refresh_err fs { app with current_dir := ent.path, selected := 0 }
          e hrd] at hok
        simp at hok
      | ok names =>
        rw [refresh_ok fs { app with current_dir := ent.path, selected := 0 }
          names hrd]
        exact previewConsistent_update_preview fs _
    · rw [if_neg hd]; exact h

/-- Claim C6 (amended): after every state-mutating operation that reports no
error — and unconditionally for refresh, moveSelection and goParent — the
cached preview equals the preview computed from the entry at `selected` in
the current `entries`.  The one exception, forced by the counterexample
below, is `enter` on a directory whose listing fails: it resets `selected`
to 0 without recomputing the preview (the error then propagates and `main`
exits). -/
theorem preview_consistent_after_ops (fs : FS) (app : App) (op : NavOp)
    (h : previewConsistent fs app)
    (hok : (applyNavE fs app op).2 = none ∨ op ≠ NavOp.enter) :
    previewConsistent fs (applyNavE fs app op).1 := by
  cases op with
  | refresh => exact pc_refresh fs app h
  | moveUp => exact pc_move_up fs app h
  | moveDown => exact pc_move_down fs app h
  | goParent => exact pc_go_parent fs app h
  | enter =>
    rcases hok with hok | hne
    · exact pc_enter fs app h hok
    · exact absurd rfl hne

/-- Filesystem for the C6 counterexample: root `["r"]` holds two
subdirectories; `d` is readable, `g` is not. -/
def fsC6 : FS where
  is_dir := fun p => decide (p = ["r"] ∨ p = ["r", "d"] ∨ p = ["r", "g"])
  read_dir := fun p =>
    if p = ["r"] then .ok ["d", "g"]
    else if p = ["r", "d"] then .ok ["x"]
    else .error "denied"
  read_to_string := fun _ => none
  highlight := fun s _ => [[⟨s, PStyle.default⟩]]

def entsC6 : List DirEntry := [⟨["r", "d"], "d"⟩, ⟨["r", "g"], "g"⟩]

def appC6 : App := ⟨["r"], entsC6, 1, computePreview fsC6 entsC6 1⟩

/-- Counterexample to C6 as stated: from a consistent state with the
unreadable directory `g` selected at index 1, `enter` returns (with an
error) in a state whose cached preview no longer matches the entry at the
new `selected` index 0. -/
theorem preview_stale_after_failed_enter :
    previewConsistent fsC6 appC6 ∧
    ¬ previewConsistent fsC6 (applyNav fsC6 appC6 NavOp.enter) := by decide

/-- Witness for the amended C6: a MoveUp from the same consistent state
keeps the preview consistent. -/
theorem preview_consistent_after_ops_witness :
    previewConsistent fsC6 appC6 ∧
    previewConsistent fsC6 (applyNavE fsC6 appC6 NavOp.moveUp).1 :=
  ⟨by decide,
   preview_consistent_after_ops fsC6 appC6 NavOp.moveUp (by decide) (Or.inl rfl)⟩

/-- Claim C7: when the selected entry is a readable directory, the
recomputed preview has one line per child, in purely lexicographic name
order (not directories-first), directory children rendered with a trailing
separator and the directory style, file children with the default style. -/
theorem dir_preview_lex_sorted (fs : FS) (app : App) (ent : DirEntry)
    (cs : List String)
    (hget : app.entries[app.selected]? = some ent)
    (hdir : fs.is_dir ent.path = true)
    (hread : fs.read_dir ent.path = .ok cs) :
    ∃ items : List (String × Bool),
      items.Perm (cs.map fun n => (n, fs.is_dir (ent.path ++ [n]))) ∧
      items.Pairwise (fun a b => strLe a.1 b.1 = true) ∧
      (update_preview fs app).preview_lines = items.map (fun it =>
        [⟨if it.2 then it.1 ++ "/" else it.1,
          if it.2 then PStyle.dir else PStyle.default⟩]) := by
  refine ⟨sortBy (fun a b => strLe a.1 b.1)
    (cs.map fun n => (n, fs.is_dir (ent.path ++ [n]))), ?_, ?_, ?_⟩
  · exact sortBy_perm _ _
  · exact sortBy_pairwise (fun (a b : String × Bool) => strLe a.1 b.1)
      (fun a b c h1 h2 => strLe_trans h1 h2)
      (fun a b => strLe_total a.1 b.1) _
  · unfold update_preview computePreview
    rw [hget]
    dsimp only
    rw [if_pos hdir, hread]
    rfl

/-- Filesystem for the C7 witness: directory `["r","d"]` with two file
children named `z` and `y`. -/
def fsC7 : FS where
  is_dir := fun p => decide (p = ["r"] ∨ p = ["r", "d"])
  read_dir := fun p => if p = ["r", "d"] then .ok ["z", "y"] else .error "nf"
  read_to_string := fun _ => none
  highlight := fun s _ => [[⟨s, PStyle.default⟩]]

def appC7 : App := ⟨["r"], [⟨["r", "d"], "d"⟩], 0, []⟩

/-- Witness for C7, on the spec's scenario: children `z`, `y` preview as the
lines `y` then `z`. -/
theorem dir_preview_lex_sorted_witness :
    ((update_preview fsC7 appC7).preview_lines =
      [[⟨"y", PStyle.default⟩], [⟨"z", PStyle.default⟩]]) ∧
    (∃ items : List (String × Bool),
      items.Perm (["z", "y"].map fun n =>
        (n, fsC7.is_dir (DirEntry.path ⟨["r", "d"], "d"⟩ ++ [n]))) ∧
      items.Pairwise (fun a b => strLe a.1 b.1 = true) ∧
      (update_preview fsC7 appC7).preview_lines = items.map (fun it =>
        [⟨if it.2 then it.1 ++ "/" else it.1,
          if it.2 then PStyle.dir else PStyle.default⟩])) :=
  ⟨by decide,
   dir_preview_lex_sorted fsC7 appC7 ⟨["r", "d"], "d"⟩ ["z", "y"] rfl rfl rfl⟩

/-- Filesystem for the C1 evaluation: as `fsC6`, the selected subdirectory
`g` exists but cannot be listed. -/
def fsC1 : FS where
  is_dir := fun p => decide (p = ["r"] ∨ p = ["r", "d"] ∨ p = ["r", "g"])
  read_dir := fun p =>
    if p = ["r"] then .ok ["d", "g"]
    else if p = ["r", "d"] then .ok ["x"]
    else .error "denied"
  read_to_string := fun _ => none
  highlight := fun s _ => [[⟨s, PStyle.default⟩]]

def appC1 : App := ⟨["r"], [⟨["r", "d"], "d"⟩, ⟨["r", "g"], "g"⟩], 1, []⟩

/-- Claim C1 is violated by the code: `enter_directory` on the unreadable
directory `g` does fail with the directory-read error, and the old `entries`
survive, but `current_dir` has already been committed to the new directory
and `selected_index` reset to 0 — the previous directory and selection are
NOT intact (the spec itself flags this as a known defect of the original). -/
theorem enter_unreadable_commits_new_dir :
    (enter_directory fsC1 appC1).2 = some "denied" ∧
    appC1.current_dir = ["r"] ∧
    (enter_directory fsC1 appC1).1.current_dir = ["r", "g"] ∧
    appC1.selected = 1 ∧
    (enter_directory fsC1 appC1).1.selected = 0 ∧
    (enter_directory fsC1 appC1).1.entries = appC1.entries := by decide

/-- Filesystem for the C2 evaluation: every directory read fails (the
current directory `["a","b"]` and its parent `["a"]` became unreadable). -/
def fsC2 : FS where
  is_dir := fun p => decide (p = ["a"] ∨ p = ["a", "b"])
  read_dir := fun _ => .error "gone"
  read_to_string := fun _ => none
  highlight := fun s _ => [[⟨s, PStyle.default⟩]]

def appC2 : App := ⟨["a", "b"], [⟨["a", "b", "x"], "x"⟩], 0, []⟩

/-- Claim C2 is violated by the code: when the current directory becomes
unreadable, `refresh_entries` does NOT degrade to an empty entry list — it
keeps the previous (non-empty) entries and propagates the error — and a
GoParent command then makes `main`'s loop exit the process with that error
instead of letting the user continue. -/
theorem refresh_failure_keeps_entries_and_aborts :
    (refresh_entries fsC2 appC2).2 = some "gone" ∧
    (refresh_entries fsC2 appC2).1 = appC2 ∧
    appC2.entries ≠ [] ∧
    mainStep fsC2 appC2 Command.goParent = StepResult.exitErr "gone" := by decide

end Lazycat
